import Mathlib

/-!
Verification development for `pdf_highlighter.py`, a batch PDF keyword
highlighter.  Strings are modelled as `List Char` (`Str`), filesystem paths as
lists of path components (`PyPath`), and the external PDF library (PyMuPDF) as
an oracle: a document is a list of pages, each page carrying an opaque search
function (page.search_for with the dehyphenate and ignore-case flags) and an
opaque annotation outcome per matched region.  Fallible operations return
`Except`/`Option`; the per-file driver `highlight_document` is a total function
returning a `FileOutcome`, mirroring the `try/except` at file granularity in
the source.
-/

/-- Strings are modelled as lists of characters. -/
abbrev Str := List Char

/-- Filesystem paths are lists of path components. -/
abbrev PyPath := List Str

/-- Whitespace characters stripped by Python's `str.strip()` (ASCII set). -/
def pySpace (c : Char) : Bool :=
  c = ' ' || c = '\t' || c = '\n' || c = '\r' || c = '\u000b' || c = '\u000c'

/-- Model of Python `str.strip()`: drop whitespace from the front, then from
the back. -/
def pyStrip (l : Str) : Str :=
  (l.dropWhile pySpace).rdropWhile pySpace

/-- Model of Python `str.split(sep)` (auxiliary, carries the reversed current
piece): splitting the empty string yields one empty piece, and each separator
occurrence ends the current piece. -/
def pySplitAux (sep : Char) : Str → Str → List Str
  | [], acc => [acc.reverse]
  | c :: rest, acc =>
    if c = sep then acc.reverse :: pySplitAux sep rest []
    else pySplitAux sep rest (c :: acc)

/-- Model of Python `str.split(sep)` with a one-character separator. -/
def pySplit (sep : Char) (l : Str) : List Str :=
  pySplitAux sep l []

/-- Model of Python `str.splitlines()` (auxiliary): line breaks are `\r\n`,
`\n`, or `\r`; a trailing line break produces no trailing empty line. -/
def pySplitLinesAux : Str → Str → List Str
  | [], acc => if acc.isEmpty then [] else [acc.reverse]
  | '\r' :: '\n' :: rest, acc => acc.reverse :: pySplitLinesAux rest []
  | '\n' :: rest, acc => acc.reverse :: pySplitLinesAux rest []
  | '\r' :: rest, acc => acc.reverse :: pySplitLinesAux rest []
  | c :: rest, acc => pySplitLinesAux rest (c :: acc)

/-- Model of Python `str.splitlines()`. -/
def pySplitLines (l : Str) : List Str :=
  pySplitLinesAux l []

/-- Embedding of `load_keywords_from_text` (src/pdf_highlighter.py:39-41):
`[line.strip() for line in path.read_text(...).splitlines() if line.strip()]`,
applied to the decoded file content. -/
def load_keywords_from_text (content : Str) : List Str :=
  ((pySplitLines content).filter (fun line => !(pyStrip line).isEmpty)).map pyStrip

/-- Embedding of the comma-separated keyword parsing inline in
`HighlighterApp._edit_keywords` (src/pdf_highlighter.py:157):
`[kw.strip() for kw in result.split(",") if kw.strip()]`.  It is a total
function: it never fails. -/
def parse_keywords_text (raw : Str) : List Str :=
  ((pySplit ',' raw).filter (fun kw => !(pyStrip kw).isEmpty)).map pyStrip

/-- One filesystem entry under the scanned root: its path (components relative
to the root, the last component being the entry's name) and whether it is a
regular file (`Path.is_file()`).  A directory tree is modelled as the list of
all entries that `Path.rglob` can enumerate, in traversal order. -/
structure FsEntry where
  path : PyPath
  isFile : Bool
deriving DecidableEq

/-- Name of an entry: the final path component (Python `Path.name`). -/
def entryName (en : FsEntry) : Str :=
  en.path.getLastD []

/-- Name of a path: its final component. -/
def pathName (p : PyPath) : Str :=
  p.getLastD []

/-- Whether a file name matches the glob pattern `*.pdf`: under `fnmatch`
semantics, `*` matches any (possibly empty) run of non-separator characters,
so the pattern matches exactly the names whose last four characters are
`.pdf` (case-sensitively). -/
def matchesPdfGlob (name : Str) : Bool :=
  ".pdf".data.isSuffixOf name

/-- Embedding of `walk_pdfs` (src/pdf_highlighter.py:65-67):
`[p for p in folder.rglob("*.pdf") if p.is_file()]` — the entries matching the
glob pattern, restricted to regular files, in traversal order. -/
def walk_pdfs (fs : List FsEntry) : List PyPath :=
  ((fs.filter (fun en => matchesPdfGlob (entryName en))).filter
    (fun en => en.isFile)).map FsEntry.path

/-- One bounding region returned by a page search, identified opaquely. -/
abbrev Rect := Nat

/-- Error text raised by an external PDF-library operation. -/
abbrev ErrMsg := Str

/-- One page of an opened document, as exposed by the external PDF library:
`searchFor kw` is the list of bounding regions returned by
`page.search_for(kw, quads=False, hit_max=0, flags=TEXT_DEHYPHENATE |
TEXT_IGNORECASE)` — the case-insensitive, hyphenation-tolerant search — and
`annotResult r` is the outcome of `add_highlight_annot`/`set_colors`/`update`
on region `r` (`none` = added fine, `some e` = that call raised `e`). -/
structure PdfPage where
  searchFor : Str → List Rect
  annotResult : Rect → Option ErrMsg

/-- An opened document: its pages in document order, plus the outcome of
`doc.save(dest, garbage=4, deflate=True)` (`none` = saved fine). -/
structure PdfDoc where
  pages : List PdfPage
  saveResult : Option ErrMsg

/-- The environment: what `fitz.open(src)` yields for each source path. -/
abbrev PdfEnv := PyPath → Except ErrMsg PdfDoc

/-- First error raised while annotating a page's matched regions in order
(`none` when every annotation succeeds). -/
def firstAnnotErr (pg : PdfPage) : List Rect → Option ErrMsg
  | [] => none
  | r :: rs =>
    match pg.annotResult r with
    | some e => some e
    | none => firstAnnotErr pg rs

/-- Inner loop of `highlight_document` over one page: for each keyword in
order, search, annotate every matched region, and accumulate
`total_hits += len(text_instances)`.  Returns the page's hit count and the
annotated regions in order, or the first error raised. -/
def pageRun (pg : PdfPage) : List Str → Except ErrMsg (Nat × List Rect)
  | [] => .ok (0, [])
  | kw :: kws =>
    let insts := pg.searchFor kw
    match firstAnnotErr pg insts with
    | some e => .error e
    | none =>
      match pageRun pg kws with
      | .error e => .error e
      | .ok (n, anns) => .ok (insts.length + n, insts ++ anns)

/-- Outer loop of `highlight_document` over the document's pages in order. -/
def docRun (kws : List Str) : List PdfPage → Except ErrMsg (Nat × List (List Rect))
  | [] => .ok (0, [])
  | pg :: pgs =>
    match pageRun pg kws with
    | .error e => .error e
    | .ok (n, anns) =>
      match docRun kws pgs with
      | .error e => .error e
      | .ok (m, rest) => .ok (n + m, anns :: rest)

/-- Filesystem side effects the engine can perform before/at saving. -/
inductive FsEff where
  | mkdirParents (p : PyPath)
  | save (p : PyPath)
deriving DecidableEq

/-- Result of one `highlight_document` invocation: the single log line put on
the queue, the destination written (`none` on failure), the hit count on
success, and the filesystem effects performed, in order. -/
structure FileOutcome where
  log : Str
  written : Option PyPath
  hits : Option Nat
  effects : List FsEff

/-- The failure log line `f"✗ Error {src.name}: {exc}"`. -/
def failLine (src : PyPath) (e : ErrMsg) : Str :=
  "✗ Error ".data ++ pathName src ++ ": ".data ++ e

/-- The success log line `f"✓ {src.name}: {total_hits} hit(s)"`. -/
def okLine (src : PyPath) (hits : Nat) : Str :=
  "✓ ".data ++ pathName src ++ ": ".data ++ (Nat.repr hits).data ++ " hit(s)".data

/-- Embedding of `highlight_document` (src/pdf_highlighter.py:44-62): open the
source, search and annotate every page, create the destination's parent
directories, save, and put exactly one log line on the queue; any error in
those steps is caught (the function is total) and reported as the single
failure line, with nothing written. -/
def highlight_document (env : PdfEnv) (src dest : PyPath) (keywords : List Str) :
    FileOutcome :=
  match env src with
  | .error e => ⟨failLine src e, none, none, []⟩
  | .ok doc =>
    match docRun keywords doc.pages with
    | .error e => ⟨failLine src e, none, none, []⟩
    | .ok (n, _) =>
      match doc.saveResult with
      | some e => ⟨failLine src e, none, none, [.mkdirParents dest.dropLast]⟩
      | none =>
        ⟨okLine src n, some dest, some n,
          [.mkdirParents dest.dropLast, .save dest]⟩

/-- Which error, if any, the steps of `highlight_document` raise for a given
source (open, search/annotate, then save). -/
def highlightError (env : PdfEnv) (src : PyPath) (keywords : List Str) :
    Option ErrMsg :=
  match env src with
  | .error e => some e
  | .ok doc =>
    match docRun keywords doc.pages with
    | .error e => some e
    | .ok _ => doc.saveResult

/-- All truncations (initial component chains) of a path, shortest first:
the directories `mkdir(parents=True, exist_ok=True)` guarantees to exist. -/
def pathTruncations (p : PyPath) : List PyPath :=
  (List.range (p.length + 1)).map (fun k => p.take k)

/-- Semantics of one filesystem effect on the set of existing directories:
`mkdirParents p` creates `p` and every ancestor; saving creates no
directories. -/
def applyFsEff (dirs : List PyPath) : FsEff → List PyPath
  | .mkdirParents p => dirs ++ pathTruncations p
  | .save _ => dirs

/-- A one-page demo document whose only page matches one region per search
and whose annotations and save succeed (used to instantiate theorems). -/
def demoPage : PdfPage :=
  ⟨fun _ => [0], fun _ => none⟩

/-- The demo document wrapping `demoPage`. -/
def demoDoc : PdfDoc :=
  ⟨[demoPage], none⟩

/-- An environment where every open succeeds with `demoDoc`. -/
def demoEnv : PdfEnv :=
  fun _ => .ok demoDoc

/-- An environment where every open raises `boom`. -/
def demoFailEnv : PdfEnv :=
  fun _ => .error "boom".data

/-- One item put on the worker-to-foreground queue (`self.log_q`): a text log
line, a `("PROGRESS", idx)` tuple, or the terminal `("DONE", total)` tuple. -/
inductive Event where
  | log (s : Str)
  | progress (i : Nat)
  | done (n : Nat)
deriving DecidableEq

/-- Per-file destination path (src/pdf_highlighter.py:185):
`(dest_base / pdf.relative_to(self.src_folder)) if dest_base !=
self.src_folder else pdf`; joining appends components and `relative_to` drops
the source folder's components. -/
def destOf (destBase srcFolder pdf : PyPath) : PyPath :=
  if destBase ≠ srcFolder then destBase ++ pdf.drop srcFolder.length else pdf

/-- The worker loop body (src/pdf_highlighter.py:184-188) for a run without
concurrent edits: for each remaining file at 1-based index `idx`, enqueue the
single log line of its `highlight_document` call, then `("PROGRESS", idx)`. -/
def workerBatch (env : PdfEnv) (destBase srcFolder : PyPath) (kws : List Str) :
    Nat → List PyPath → List Event
  | _, [] => []
  | idx, pdf :: rest =>
    Event.log (highlight_document env pdf (destOf destBase srcFolder pdf) kws).log
      :: Event.progress idx
      :: workerBatch env destBase srcFolder kws (idx + 1) rest

/-- Embedding of `HighlighterApp._worker` (src/pdf_highlighter.py:181-189):
`dest_base = self.dest_folder or self.src_folder`, the files are processed in
order with 1-based indices, and `("DONE", len(pdfs))` is enqueued last. -/
def workerEvents (env : PdfEnv) (srcFolder : PyPath) (destFolder : Option PyPath)
    (kws : List Str) (files : List PyPath) : List Event :=
  workerBatch env (destFolder.getD srcFolder) srcFolder kws 1 files
    ++ [Event.done files.length]

/-- The progress payloads of an event list, in order. -/
def progressVals (evs : List Event) : List Nat :=
  evs.filterMap (fun ev => match ev with | Event.progress i => some i | _ => none)

/-- The log-line payloads of an event list, in order. -/
def logTexts (evs : List Event) : List Str :=
  evs.filterMap (fun ev => match ev with | Event.log s => some s | _ => none)

/-- The completion payloads of an event list, in order. -/
def doneVals (evs : List Event) : List Nat :=
  evs.filterMap (fun ev => match ev with | Event.done n => some n | _ => none)

/-- Foreground display state: the append-only log lines, the progress-bar
value, and the summary total once `("DONE", n)` has been consumed. -/
structure UIState where
  logLines : List Str
  progressVal : Nat
  summary : Option Nat
deriving DecidableEq

/-- One step of `HighlighterApp._drain_log_q` (src/pdf_highlighter.py:192-207)
on one dequeued item: log text is appended to the read-only text area,
`PROGRESS` sets the progress-bar value, `DONE` sets the summary line. -/
def drainStep (st : UIState) : Event → UIState
  | Event.log s => { st with logLines := st.logLines ++ [s] }
  | Event.progress i => { st with progressVal := i }
  | Event.done n => { st with summary := some n }

/-- Draining a queue of events in FIFO (enqueue) order from a start state. -/
def drainAll (st : UIState) (evs : List Event) : UIState :=
  evs.foldl drainStep st

/-- The foreground state when a run starts (progress reset, log cleared). -/
def initialUI : UIState :=
  ⟨[], 0, none⟩

/-- A foreground/worker interleaving step during a Running batch: the user
commits a keyword edit (`_edit_keywords` rebinding `self.keywords`), or the
worker starts its next file. -/
inductive RunAct where
  | edit (raw : Str)
  | next
deriving DecidableEq

/-- Interleaved run semantics (src/pdf_highlighter.py:181-189 together with
153-158): the worker reads `self.keywords` afresh when each job starts
(line 186), and an edit rebinds that attribute to the newly parsed list; the
result records each processed file with the keyword list actually passed to
its `highlight_document` call. -/
def runBatchGo : List Str → List PyPath → List RunAct → List (PyPath × List Str)
  | _, _, [] => []
  | _, files, RunAct.edit raw :: rest =>
    runBatchGo (parse_keywords_text raw) files rest
  | kw, [], RunAct.next :: rest => runBatchGo kw [] rest
  | kw, f :: fs, RunAct.next :: rest => (f, kw) :: runBatchGo kw fs rest

/-- One Running batch under a schedule of interleaved actions, starting from
the keyword list current when the batch started. -/
def runBatch (kws0 : List Str) (files : List PyPath) (acts : List RunAct) :
    List (PyPath × List Str) :=
  runBatchGo kws0 files acts

/-- A list that is a nonempty prefix of a `dropWhile p` result starts with an
element falsifying `p`, so `dropWhile p` leaves it unchanged. -/
theorem dropWhile_of_prefix_dropWhile {p : Char → Bool} {l r : Str}
    (h : r <+: l.dropWhile p) : r.dropWhile p = r := by
  cases r with
  | nil => rfl
  | cons a r' =>
    obtain ⟨t, ht⟩ := h
    have h1 : l.dropWhile p ≠ [] := by rw [← ht]; simp
    have h3 : (l.dropWhile p).head? = some a := by rw [← ht]; rfl
    have h4 : (l.dropWhile p).head? = some ((l.dropWhile p).head h1) :=
      List.head?_eq_head h1
    have h5 : p a = false := by
      have h6 := List.head_dropWhile_not p l h1
      rw [h4] at h3
      injection h3 with h3
      rw [← h3]
      exact h6
    simp [List.dropWhile_cons, h5]

/-- Stripping is idempotent. -/
theorem pyStrip_idem (l : Str) : pyStrip (pyStrip l) = pyStrip l := by
  unfold pyStrip
  have hpre : (l.dropWhile pySpace).rdropWhile pySpace <+: l.dropWhile pySpace :=
    List.rdropWhile_prefix pySpace (l.dropWhile pySpace)
  rw [dropWhile_of_prefix_dropWhile hpre, List.rdropWhile_idempotent]

/-- C7: loading keywords from a text file splits the content on line
boundaries, trims each line, discards blank lines and preserves order; every
element of the result is nonempty and carries no surrounding whitespace. -/
theorem C7_load_keywords (content : Str) :
    load_keywords_from_text content
      = ((pySplitLines content).map pyStrip).filter (fun k => !k.isEmpty) ∧
    ∀ k ∈ load_keywords_from_text content, k ≠ [] ∧ pyStrip k = k := by
  constructor
  · unfold load_keywords_from_text
    rw [List.filter_map]
    rfl
  · intro k hk
    unfold load_keywords_from_text at hk
    rw [List.mem_map] at hk
    obtain ⟨line, hline, rfl⟩ := hk
    rw [List.mem_filter] at hline
    refine ⟨?_, pyStrip_idem line⟩
    simpa using hline.2

/-- C7 witness: the theorem applied to a concrete keyword file content. -/
theorem C7_load_keywords_witness :
    "alpha".data ∈ load_keywords_from_text "  alpha \n\nbeta\n".data ∧
    "alpha".data ≠ [] ∧ pyStrip "alpha".data = "alpha".data := by
  refine ⟨by decide, ?_⟩
  exact (C7_load_keywords "  alpha \n\nbeta\n".data).2 "alpha".data (by decide)

/-- C8: parsing comma-separated keyword text splits on commas, trims each
piece, discards empty pieces and preserves order; it is total, the empty
string yields the empty list, and `"foo, , bar,baz "` yields exactly
`["foo", "bar", "baz"]`; every element is nonempty and trimmed. -/
theorem C8_parse_keywords (raw : Str) :
    parse_keywords_text [] = [] ∧
    parse_keywords_text "foo, , bar,baz ".data
      = ["foo".data, "bar".data, "baz".data] ∧
    parse_keywords_text raw
      = ((pySplit ',' raw).map pyStrip).filter (fun k => !k.isEmpty) ∧
    ∀ k ∈ parse_keywords_text raw, k ≠ [] ∧ pyStrip k = k := by
  refine ⟨by decide, by decide, ?_, ?_⟩
  · unfold parse_keywords_text
    rw [List.filter_map]
    rfl
  · intro k hk
    unfold parse_keywords_text at hk
    rw [List.mem_map] at hk
    obtain ⟨piece, hpiece, rfl⟩ := hk
    rw [List.mem_filter] at hpiece
    refine ⟨?_, pyStrip_idem piece⟩
    simpa using hpiece.2

/-- C8 witness: the theorem applied to a concrete comma-separated input. -/
theorem C8_parse_keywords_witness :
    parse_keywords_text "foo, , bar,baz ".data
      = ["foo".data, "bar".data, "baz".data] ∧
    "foo".data ≠ [] ∧ pyStrip "foo".data = "foo".data := by
  refine ⟨(C8_parse_keywords []).2.1, ?_⟩
  exact (C8_parse_keywords "foo, , bar,baz ".data).2.2.2 "foo".data (by decide)

/-- Filtering by the glob and then by `isFile` keeps exactly the regular files
when every regular file's name matches the glob. -/
theorem walk_pdfs_length (fs : List FsEntry)
    (hall : ∀ en ∈ fs, en.isFile = true → matchesPdfGlob (entryName en) = true) :
    (walk_pdfs fs).length = (fs.filter (fun en => en.isFile)).length := by
  unfold walk_pdfs
  rw [List.length_map]
  induction fs with
  | nil => rfl
  | cons en rest ih =>
    have hrest : ∀ e ∈ rest, e.isFile = true → matchesPdfGlob (entryName e) = true :=
      fun e he => hall e (List.mem_cons_of_mem en he)
    by_cases hf : en.isFile = true
    · have hg : matchesPdfGlob (entryName en) = true :=
        hall en (List.mem_cons_self en rest) hf
      simp only [List.filter_cons, hg, hf, if_true, List.length_cons]
      rw [ih hrest]
    · simp only [Bool.not_eq_true] at hf
      by_cases hg : matchesPdfGlob (entryName en) = true
      · simp only [List.filter_cons, hg, hf, if_true, Bool.false_eq_true, if_false]
        exact ih hrest
      · simp only [Bool.not_eq_true] at hg
        simp only [List.filter_cons, hg, hf, Bool.false_eq_true, if_false]
        exact ih hrest

/-- C6: discovery returns exactly the regular files matching the PDF glob: in
a tree whose regular files all bear the `.pdf` extension, it returns one path
per regular file (directories are never returned), each returned path is an
entry's path whose name ends in `.pdf`, and a tree with no matching files
yields the empty list (discovery is total — never an error). -/
theorem C6_walk_pdfs (fs : List FsEntry)
    (hall : ∀ en ∈ fs, en.isFile = true → matchesPdfGlob (entryName en) = true) :
    (walk_pdfs fs).length = (fs.filter (fun en => en.isFile)).length ∧
    (∀ p ∈ walk_pdfs fs, ∃ en ∈ fs, en.isFile = true ∧ en.path = p ∧
      matchesPdfGlob (pathName p) = true) ∧
    (∀ gs : List FsEntry,
      (∀ en ∈ gs, ¬(en.isFile = true ∧ matchesPdfGlob (entryName en) = true)) →
      walk_pdfs gs = []) := by
  refine ⟨walk_pdfs_length fs hall, ?_, ?_⟩
  · intro p hp
    unfold walk_pdfs at hp
    rw [List.mem_map] at hp
    obtain ⟨en, hen, rfl⟩ := hp
    rw [List.mem_filter] at hen
    obtain ⟨hen1, hfile⟩ := hen
    rw [List.mem_filter] at hen1
    exact ⟨en, hen1.1, hfile, rfl, hen1.2⟩
  · intro gs hnone
    unfold walk_pdfs
    rw [List.map_eq_nil_iff, List.filter_eq_nil_iff]
    intro en hen
    rw [List.mem_filter] at hen
    intro hfile
    exact hnone en hen.1 ⟨hfile, hen.2⟩

/-- C6 witness: a tree with two PDF files in nested directories plus a
directory entry yields exactly the two file paths. -/
theorem C6_walk_pdfs_witness :
    (walk_pdfs [⟨["a.pdf".data], true⟩, ⟨["sub".data], false⟩,
        ⟨["sub".data, "b.pdf".data], true⟩]).length
      = ([⟨["a.pdf".data], true⟩, ⟨["sub".data], false⟩,
          ⟨["sub".data, "b.pdf".data], true⟩].filter
            (fun en : FsEntry => en.isFile)).length := by
  exact (C6_walk_pdfs _ (by decide)).1

/-- C10: discovery matches names only against the literal lowercase pattern
`*.pdf`: every discovered path's name ends in the four characters `.pdf`, and
an entry whose name ends in `.PDF` (hence not in `.pdf`) is never returned,
regular file or not. -/
theorem C10_walk_pdfs_case (fs : List FsEntry) :
    (∀ p ∈ walk_pdfs fs, ".pdf".data <:+ pathName p) ∧
    (∀ p : PyPath, ".PDF".data <:+ pathName p → p ∉ walk_pdfs fs) := by
  constructor
  · intro p hp
    unfold walk_pdfs at hp
    rw [List.mem_map] at hp
    obtain ⟨en, hen, rfl⟩ := hp
    rw [List.mem_filter] at hen
    obtain ⟨hen1, _⟩ := hen
    rw [List.mem_filter] at hen1
    have hglob := hen1.2
    unfold matchesPdfGlob at hglob
    rw [List.isSuffixOf_iff_suffix] at hglob
    exact hglob
  · intro p hP hp
    unfold walk_pdfs at hp
    rw [List.mem_map] at hp
    obtain ⟨en, hen, hpath⟩ := hp
    rw [List.mem_filter] at hen
    obtain ⟨hen1, _⟩ := hen
    rw [List.mem_filter] at hen1
    have hglob := hen1.2
    unfold matchesPdfGlob at hglob
    rw [List.isSuffixOf_iff_suffix] at hglob
    have hname : entryName en = pathName p := by
      unfold entryName pathName
      rw [hpath]
    rw [hname] at hglob
    have e1 := List.suffix_iff_eq_drop.mp hglob
    have e2 := List.suffix_iff_eq_drop.mp hP
    have hlen : (".pdf".data : Str).length = (".PDF".data : Str).length := rfl
    rw [hlen] at e1
    exact absurd (e1.trans e2.symm) (by decide)

/-- C10 witness: the theorem applied to a concrete tree holding one `.pdf`
file and one `.PDF` file. -/
theorem C10_walk_pdfs_case_witness :
    ".pdf".data <:+ pathName ["a.pdf".data] ∧
    ["b.PDF".data] ∉ walk_pdfs [⟨["a.pdf".data], true⟩, ⟨["b.PDF".data], true⟩] := by
  constructor
  · exact (C10_walk_pdfs_case [⟨["a.pdf".data], true⟩, ⟨["b.PDF".data], true⟩]).1
      ["a.pdf".data] (by decide)
  · exact (C10_walk_pdfs_case [⟨["a.pdf".data], true⟩, ⟨["b.PDF".data], true⟩]).2
      ["b.PDF".data] ⟨"b".data, by decide⟩

/-- A page run that returns `.ok` reports as hit count the sum over keywords
of the number of regions found, and annotates exactly those regions, in
order. -/
theorem pageRun_ok (pg : PdfPage) (kws : List Str) (n : Nat) (anns : List Rect)
    (h : pageRun pg kws = .ok (n, anns)) :
    n = (kws.map (fun kw => (pg.searchFor kw).length)).sum ∧
    anns = (kws.map (fun kw => pg.searchFor kw)).flatten := by
  induction kws generalizing n anns with
  | nil =>
    simp only [pageRun, Except.ok.injEq, Prod.mk.injEq] at h
    simp [← h.1, ← h.2]
  | cons kw kws ih =>
    cases hfe : firstAnnotErr pg (pg.searchFor kw) with
    | some e =>
      simp only [pageRun, hfe] at h
      exact Except.noConfusion h
    | none =>
      cases hrec : pageRun pg kws with
      | error e =>
        simp only [pageRun, hfe, hrec] at h
        exact Except.noConfusion h
      | ok pr =>
        obtain ⟨m, anns'⟩ := pr
        simp only [pageRun, hfe, hrec, Except.ok.injEq, Prod.mk.injEq] at h
        obtain ⟨hm, ha⟩ := ih m anns' hrec
        constructor
        · simp only [List.map_cons, List.sum_cons, ← h.1, hm]
        · simp only [List.map_cons, List.flatten_cons, ← h.2, ha]

/-- A document run that returns `.ok` reports the sum over pages of the page
hit counts, and annotates per page exactly the matched regions. -/
theorem docRun_ok (kws : List Str) (pgs : List PdfPage) (n : Nat)
    (anns : List (List Rect)) (h : docRun kws pgs = .ok (n, anns)) :
    n = (pgs.map (fun pg => (kws.map (fun kw => (pg.searchFor kw).length)).sum)).sum ∧
    anns = pgs.map (fun pg => (kws.map (fun kw => pg.searchFor kw)).flatten) := by
  induction pgs generalizing n anns with
  | nil =>
    simp only [docRun, Except.ok.injEq, Prod.mk.injEq] at h
    simp [← h.1, ← h.2]
  | cons pg pgs ih =>
    cases hpr : pageRun pg kws with
    | error e =>
      simp only [docRun, hpr] at h
      exact Except.noConfusion h
    | ok pr =>
      obtain ⟨m, panns⟩ := pr
      cases hrec : docRun kws pgs with
      | error e =>
        simp only [docRun, hpr, hrec] at h
        exact Except.noConfusion h
      | ok dr =>
        obtain ⟨m', rest⟩ := dr
        simp only [docRun, hpr, hrec, Except.ok.injEq, Prod.mk.injEq] at h
        obtain ⟨hm, ha⟩ := pageRun_ok pg kws m panns hpr
        obtain ⟨hm', ha'⟩ := ih m' rest hrec
        constructor
        · simp only [List.map_cons, List.sum_cons, ← h.1, hm, hm']
        · simp only [List.map_cons, ← h.2, ha, ha']

/-- C2: on a successful invocation the reported hit count equals the sum, over
every page in document order and every keyword in supplied order, of the
number of regions returned by the (case-insensitive, hyphenation-tolerant)
page search, and the annotated regions are exactly those matched regions, one
highlight per region. -/
theorem C2_hit_count (env : PdfEnv) (src dest : PyPath) (kws : List Str)
    (doc : PdfDoc) (n : Nat)
    (hopen : env src = .ok doc)
    (hs : (highlight_document env src dest kws).hits = some n) :
    n = (doc.pages.map
        (fun pg => (kws.map (fun kw => (pg.searchFor kw).length)).sum)).sum ∧
    ∃ anns, docRun kws doc.pages = .ok (n, anns) ∧
      anns = doc.pages.map
        (fun pg => (kws.map (fun kw => pg.searchFor kw)).flatten) := by
  unfold highlight_document at hs
  rw [hopen] at hs
  simp only [] at hs
  cases hrun : docRun kws doc.pages with
  | error e =>
    rw [hrun] at hs
    simp at hs
  | ok pr =>
    obtain ⟨m, anns⟩ := pr
    rw [hrun] at hs
    simp only [] at hs
    cases hsave : doc.saveResult with
    | some e =>
      rw [hsave] at hs
      simp at hs
    | none =>
      rw [hsave] at hs
      simp only [Option.some.injEq] at hs
      subst hs
      obtain ⟨hn, ha⟩ := docRun_ok kws doc.pages m anns hrun
      exact ⟨hn, anns, rfl, ha⟩

/-- C2 witness: the theorem applied to the concrete demo document. -/
theorem C2_hit_count_witness :
    (1 : Nat) = (demoDoc.pages.map
        (fun pg => (([['k']] : List Str).map
          (fun kw => (pg.searchFor kw).length)).sum)).sum ∧
    ∃ anns, docRun [['k']] demoDoc.pages = .ok (1, anns) ∧
      anns = demoDoc.pages.map
        (fun pg => (([['k']] : List Str).map (fun kw => pg.searchFor kw)).flatten) :=
  C2_hit_count demoEnv ["a.pdf".data] ["out".data, "a.pdf".data] [['k']]
    demoDoc 1 rfl rfl

/-- C9: on every successful invocation, the engine performs exactly a
recursive directory creation of the destination's parent followed by the save
of the destination — in that order — and that single `mkdir(parents=True)`
effect makes every directory of the destination's parent chain exist,
whatever directories existed before. -/
theorem C9_parent_dirs (env : PdfEnv) (src dest : PyPath) (kws : List Str)
    (n : Nat) (h : (highlight_document env src dest kws).hits = some n) :
    (highlight_document env src dest kws).effects
      = [.mkdirParents dest.dropLast, .save dest] ∧
    ∀ dirs0 : List PyPath, ∀ q : PyPath, q <+: dest.dropLast →
      q ∈ applyFsEff dirs0 (.mkdirParents dest.dropLast) := by
  constructor
  · unfold highlight_document at h ⊢
    cases he : env src with
    | error e =>
      rw [he] at h
      simp at h
    | ok doc =>
      rw [he] at h
      simp only [] at h ⊢
      cases hrun : docRun kws doc.pages with
      | error e =>
        rw [hrun] at h
        simp at h
      | ok pr =>
        obtain ⟨m, anns⟩ := pr
        rw [hrun] at h
        simp only [] at h ⊢
        cases hsave : doc.saveResult with
        | some e =>
          rw [hsave] at h
          simp at h
        | none =>
          rfl
  · intro dirs0 q hq
    unfold applyFsEff pathTruncations
    rw [List.mem_append]
    right
    rw [List.mem_map]
    refine ⟨q.length, ?_, ?_⟩
    · rw [List.mem_range]
      have hle := hq.length_le
      omega
    · exact ( List.prefix_iff_eq_take.mp hq).symm

/-- C9 witness: the theorem applied to the demo environment with a nested
destination path. -/
theorem C9_parent_dirs_witness :
    (highlight_document demoEnv ["a.pdf".data] ["out".data, "a.pdf".data]
        [['k']]).effects
      = [.mkdirParents ["out".data], .save ["out".data, "a.pdf".data]] ∧
    ["out".data] ∈ applyFsEff [] (.mkdirParents ["out".data]) := by
  have h := C9_parent_dirs demoEnv ["a.pdf".data] ["out".data, "a.pdf".data]
    [['k']] 1 rfl
  exact ⟨h.1, h.2 [] ["out".data] ⟨[], by simp⟩⟩

/-- Splitting progress payloads distributes over append. -/
theorem progressVals_append (a b : List Event) :
    progressVals (a ++ b) = progressVals a ++ progressVals b :=
  List.filterMap_append a b _

/-- Splitting log payloads distributes over append. -/
theorem logTexts_append (a b : List Event) :
    logTexts (a ++ b) = logTexts a ++ logTexts b :=
  List.filterMap_append a b _

/-- Splitting completion payloads distributes over append. -/
theorem doneVals_append (a b : List Event) :
    doneVals (a ++ b) = doneVals a ++ doneVals b :=
  List.filterMap_append a b _

/-- The worker enqueues, for the remaining files starting at 1-based index
`i`, exactly the progress payloads `i, i+1, ...`, in order. -/
theorem progressVals_workerBatch (env : PdfEnv) (destBase srcFolder : PyPath)
    (kws : List Str) :
    ∀ (files : List PyPath) (i : Nat),
      progressVals (workerBatch env destBase srcFolder kws i files)
        = List.range' i files.length := by
  intro files
  induction files with
  | nil => intro i; rfl
  | cons f fs ih =>
    intro i
    simp only [workerBatch, progressVals, List.filterMap_cons, List.length_cons,
      List.range'_succ]
    exact congrArg (i :: ·) (ih (i + 1))

/-- The worker enqueues exactly one log line per remaining file. -/
theorem logTexts_workerBatch_length (env : PdfEnv) (destBase srcFolder : PyPath)
    (kws : List Str) :
    ∀ (files : List PyPath) (i : Nat),
      (logTexts (workerBatch env destBase srcFolder kws i files)).length
        = files.length := by
  intro files
  induction files with
  | nil => intro i; rfl
  | cons f fs ih =>
    intro i
    simp only [workerBatch, logTexts, List.filterMap_cons, List.length_cons]
    exact congrArg (· + 1) (ih (i + 1))

/-- The worker loop itself enqueues no completion tuple. -/
theorem doneVals_workerBatch (env : PdfEnv) (destBase srcFolder : PyPath)
    (kws : List Str) :
    ∀ (files : List PyPath) (i : Nat),
      doneVals (workerBatch env destBase srcFolder kws i files) = [] := by
  intro files
  induction files with
  | nil => intro i; rfl
  | cons f fs ih =>
    intro i
    simp only [workerBatch, doneVals, List.filterMap_cons]
    exact ih (i + 1)

/-- Draining appends exactly the log payloads, in enqueue (FIFO) order, to
the display's log lines. -/
theorem drainAll_logLines (evs : List Event) :
    ∀ st : UIState, (drainAll st evs).logLines = st.logLines ++ logTexts evs := by
  induction evs with
  | nil => intro st; simp [drainAll, logTexts]
  | cons ev rest ih =>
    intro st
    rw [show drainAll st (ev :: rest) = drainAll (drainStep st ev) rest from rfl,
      ih]
    cases ev with
    | log s => simp [drainStep, logTexts, List.filterMap_cons]
    | progress i => simp [drainStep, logTexts, List.filterMap_cons]
    | done n => simp [drainStep, logTexts, List.filterMap_cons]

/-- Draining a queue that ends with the completion tuple leaves the summary
set to its payload. -/
theorem drainAll_summary_append (st : UIState) (evs : List Event) (n : Nat) :
    (drainAll st (evs ++ [Event.done n])).summary = some n := by
  unfold drainAll
  rw [List.foldl_append]
  rfl

/-- Element lookup in `range'`. -/
theorem range'_getElem? : ∀ (n s i : Nat), i < n →
    (List.range' s n)[i]? = some (s + i) := by
  intro n
  induction n with
  | zero => intro s i h; omega
  | succ n ih =>
    intro s i h
    rw [List.range'_succ]
    cases i with
    | zero => simp
    | succ i =>
      rw [List.getElem?_cons_succ, ih (s + 1) i (by omega)]
      congr 1
      omega

/-- C3: the computed destination equals the input path itself when the
destination base equals the source folder (in-place annotation), otherwise
the destination base joined with the input's path relative to the source
folder; consequently, for inputs under the source folder, distinct inputs map
to distinct destinations. -/
theorem C3_dest_paths (destBase srcFolder p q : PyPath)
    (hp : srcFolder <+: p) (hq : srcFolder <+: q) :
    (destBase = srcFolder → destOf destBase srcFolder p = p) ∧
    (destBase ≠ srcFolder →
      destOf destBase srcFolder p = destBase ++ p.drop srcFolder.length) ∧
    (destOf destBase srcFolder p = destOf destBase srcFolder q → p = q) := by
  refine ⟨?_, ?_, ?_⟩
  · intro h
    unfold destOf
    simp [h]
  · intro h
    unfold destOf
    simp [h]
  · intro h
    unfold destOf at h
    by_cases hb : destBase = srcFolder
    · simpa [hb] using h
    · rw [if_pos hb, if_pos hb] at h
      have h2 := List.append_cancel_left h
      obtain ⟨tp, htp⟩ := hp
      obtain ⟨tq, htq⟩ := hq
      rw [← htp, ← htq, List.drop_left, List.drop_left] at h2
      rw [← htp, ← htq, h2]

/-- C3 witness: the theorem applied to concrete mirrored and in-place
destination bases. -/
theorem C3_dest_paths_witness :
    destOf ["out".data] ["src".data] ["src".data, "a.pdf".data]
      = ["out".data]
        ++ (["src".data, "a.pdf".data].drop ([("src".data : Str)] : PyPath).length) ∧
    destOf ["src".data] ["src".data] ["src".data, "b.pdf".data]
      = ["src".data, "b.pdf".data] := by
  constructor
  · exact (C3_dest_paths ["out".data] ["src".data] ["src".data, "a.pdf".data]
      ["src".data, "a.pdf".data] ⟨["a.pdf".data], rfl⟩
      ⟨["a.pdf".data], rfl⟩).2.1 (by decide)
  · exact (C3_dest_paths ["src".data] ["src".data] ["src".data, "b.pdf".data]
      ["src".data, "b.pdf".data] ⟨["b.pdf".data], rfl⟩
      ⟨["b.pdf".data], rfl⟩).1 rfl

/-- C4: in a run over N discovered files the worker's progress payloads are
exactly 1..N in order (so the K-th progress value is K), they are
monotonically non-decreasing and never exceed N, the completion event is
unique, carries N and comes last, and the foreground drain observes the log
lines in exactly the FIFO order the worker enqueued them and ends with the
summary set to N. -/
theorem C4_progress_events (env : PdfEnv) (srcFolder : PyPath)
    (destFolder : Option PyPath) (kws : List Str) (files : List PyPath) :
    progressVals (workerEvents env srcFolder destFolder kws files)
      = List.range' 1 files.length ∧
    (∀ K, 1 ≤ K → K ≤ files.length →
      (progressVals (workerEvents env srcFolder destFolder kws files))[K - 1]?
        = some K) ∧
    List.Pairwise (· ≤ ·)
      (progressVals (workerEvents env srcFolder destFolder kws files)) ∧
    (∀ v ∈ progressVals (workerEvents env srcFolder destFolder kws files),
      v ≤ files.length) ∧
    doneVals (workerEvents env srcFolder destFolder kws files)
      = [files.length] ∧
    (workerEvents env srcFolder destFolder kws files).getLast?
      = some (Event.done files.length) ∧
    (drainAll initialUI (workerEvents env srcFolder destFolder kws files)).logLines
      = logTexts (workerEvents env srcFolder destFolder kws files) ∧
    (drainAll initialUI (workerEvents env srcFolder destFolder kws files)).summary
      = some files.length := by
  have hpv : progressVals (workerEvents env srcFolder destFolder kws files)
      = List.range' 1 files.length := by
    unfold workerEvents
    rw [progressVals_append, progressVals_workerBatch]
    simp [progressVals]
  refine ⟨hpv, ?_, ?_, ?_, ?_, ?_, ?_, ?_⟩
  · intro K h1 hK
    rw [hpv, range'_getElem? files.length 1 (K - 1) (by omega)]
    congr 1
    omega
  · rw [hpv]
    exact (List.pairwise_lt_range' 1 files.length).imp (fun h => le_of_lt h)
  · intro v hv
    rw [hpv, List.mem_range'_1] at hv
    omega
  · unfold workerEvents
    rw [doneVals_append, doneVals_workerBatch]
    rfl
  · unfold workerEvents
    simp
  · rw [drainAll_logLines]
    simp [initialUI]
  · unfold workerEvents
    exact drainAll_summary_append initialUI _ files.length

/-- C4 witness: the theorem applied to a one-file run over the demo
environment. -/
theorem C4_progress_events_witness :
    (progressVals (workerEvents demoEnv ["s".data] none [['k']]
        [["s".data, "a.pdf".data]]))[0]? = some 1 ∧
    (1 : Nat) ≤ [["s".data, "a.pdf".data]].length := by
  have h := C4_progress_events demoEnv ["s".data] none [['k']]
    [["s".data, "a.pdf".data]]
  exact ⟨h.2.1 1 (by decide) (by decide), h.2.2.2.1 1 (by decide)⟩

/-- When any step for a source file raises error `e`, the per-file call (whose
`try/except` catches everything) returns an outcome whose single log line is
the failure line, with nothing written, no hit count, and no save effect. -/
theorem highlight_fail_outcome (env : PdfEnv) (src : PyPath) (kws : List Str)
    (e : ErrMsg) (hfail : highlightError env src kws = some e) :
    ∀ dest : PyPath,
      (highlight_document env src dest kws).log = failLine src e ∧
      (highlight_document env src dest kws).written = none ∧
      (highlight_document env src dest kws).hits = none ∧
      (∀ p : PyPath,
        FsEff.save p ∉ (highlight_document env src dest kws).effects) := by
  intro dest
  unfold highlightError at hfail
  unfold highlight_document
  cases he : env src with
  | error e' =>
    rw [he] at hfail
    simp only [] at hfail
    injection hfail with hfail
    subst hfail
    simp only []
    refine ⟨trivial, trivial, trivial, ?_⟩
    intro p
    simp
  | ok doc =>
    rw [he] at hfail
    simp only [] at hfail
    simp only []
    cases hrun : docRun kws doc.pages with
    | error e' =>
      rw [hrun] at hfail
      simp only [] at hfail
      injection hfail with hfail
      subst hfail
      simp only []
      refine ⟨trivial, trivial, trivial, ?_⟩
      intro p
      simp
    | ok pr =>
      obtain ⟨m, anns⟩ := pr
      rw [hrun] at hfail
      simp only [] at hfail
      simp only []
      cases hsave : doc.saveResult with
      | none =>
        rw [hsave] at hfail
        exact Option.noConfusion hfail
      | some e' =>
        rw [hsave] at hfail
        injection hfail with hfail
        subst hfail
        simp only []
        refine ⟨trivial, trivial, trivial, ?_⟩
        intro p
        simp

/-- The log event of every file of the batch is enqueued by the worker loop,
whatever 1-based index the loop starts at. -/
theorem log_mem_workerBatch (env : PdfEnv) (destBase srcFolder : PyPath)
    (kws : List Str) :
    ∀ (files : List PyPath) (i : Nat) (src : PyPath), src ∈ files →
      Event.log (highlight_document env src
          (destOf destBase srcFolder src) kws).log
        ∈ workerBatch env destBase srcFolder kws i files := by
  intro files
  induction files with
  | nil => intro i src h; cases h
  | cons f fs ih =>
    intro i src h
    cases h with
    | head => exact List.mem_cons_self _ _
    | tail _ hmem =>
      exact List.mem_cons_of_mem _ (List.mem_cons_of_mem _ (ih (i + 1) src hmem))

/-- C1: if any step (open, search, annotation, save) for one source file
raises an error, the per-file call still returns — with exactly one log line,
namely the failure line containing the file's name and the error text — and
writes nothing (no save effect, no output); the batch continues: the worker's
event list carries that failure line, exactly one log line per discovered
file, and still ends with the completion event bearing the full file count. -/
theorem C1_per_file_isolation (env : PdfEnv) (srcFolder : PyPath)
    (destFolder : Option PyPath) (kws : List Str) (files : List PyPath)
    (src dest : PyPath) (e : ErrMsg)
    (hmem : src ∈ files)
    (hfail : highlightError env src kws = some e) :
    (highlight_document env src dest kws).log = failLine src e ∧
    pathName src <:+: (highlight_document env src dest kws).log ∧
    e <:+: (highlight_document env src dest kws).log ∧
    (highlight_document env src dest kws).written = none ∧
    (∀ p : PyPath, FsEff.save p ∉ (highlight_document env src dest kws).effects) ∧
    Event.log (failLine src e) ∈ workerEvents env srcFolder destFolder kws files ∧
    (logTexts (workerEvents env srcFolder destFolder kws files)).length
      = files.length ∧
    (workerEvents env srcFolder destFolder kws files).getLast?
      = some (Event.done files.length) := by
  obtain ⟨hlog, hwritten, hhits, hnosave⟩ :=
    highlight_fail_outcome env src kws e hfail dest
  refine ⟨hlog, ?_, ?_, hwritten, hnosave, ?_, ?_, ?_⟩
  · rw [hlog]
    exact ⟨"✗ Error ".data, ": ".data ++ e, by simp [failLine]⟩
  · rw [hlog]
    exact ⟨"✗ Error ".data ++ pathName src ++ ": ".data, [], by simp [failLine]⟩
  · have hl := (highlight_fail_outcome env src kws e hfail
      (destOf (destFolder.getD srcFolder) srcFolder src)).1
    unfold workerEvents
    rw [← hl]
    exact List.mem_append_left _
      (log_mem_workerBatch env (destFolder.getD srcFolder) srcFolder kws
        files 1 src hmem)
  · unfold workerEvents
    rw [logTexts_append, List.length_append, logTexts_workerBatch_length]
    rfl
  · unfold workerEvents
    simp

/-- C1 witness: the theorem applied to an environment whose open always
raises `boom` and a one-file batch. -/
theorem C1_per_file_isolation_witness :
    (highlight_document demoFailEnv ["a.pdf".data] ["a.pdf".data] [['k']]).log
      = failLine ["a.pdf".data] "boom".data ∧
    (workerEvents demoFailEnv ["s".data] none [['k']] [["a.pdf".data]]).getLast?
      = some (Event.done 1) := by
  have h := C1_per_file_isolation demoFailEnv ["s".data] none [['k']]
    [["a.pdf".data]] ["a.pdf".data] ["a.pdf".data] "boom".data
    (by decide) rfl
  exact ⟨h.1, h.2.2.2.2.2.2.2⟩

/-- C5 counterexample: in a two-file run starting with keyword list `["a"]`,
an edit to `"b"` committed between the two files makes the second job of the
same run use `["b"]` — the keyword list of a run is not frozen at the moment
the batch starts. -/
theorem C5_counterexample :
    ¬ (∀ pr ∈ runBatch ["a".data] [["f1.pdf".data], ["f2.pdf".data]]
        [RunAct.next, RunAct.edit "b".data, RunAct.next],
      pr.2 = ["a".data]) := by
  decide

/-- C5 amended: the worker reads the keyword binding afresh as each job
starts, so (1) extending the schedule never changes the jobs already
recorded — edits during the run cannot affect in-flight or already-started
jobs; (2) in a schedule with no edit, every job of the run uses the
start-time list; and (3) after an edit, the rest of the run proceeds exactly
as a run started with the edited list — jobs not yet started do pick up the
edit. -/
theorem C5_keyword_snapshot (kws0 : List Str) (files : List PyPath)
    (acts rest : List RunAct) (raw : Str) :
    runBatch kws0 files acts <+: runBatch kws0 files (acts ++ rest) ∧
    ((∀ a ∈ acts, ∀ r : Str, a ≠ RunAct.edit r) →
      ∀ pr ∈ runBatch kws0 files acts, pr.2 = kws0) ∧
    runBatch kws0 files (RunAct.edit raw :: acts)
      = runBatch (parse_keywords_text raw) files acts := by
  refine ⟨?_, ?_, by simp [runBatch, runBatchGo]⟩
  · unfold runBatch
    induction acts generalizing kws0 files with
    | nil =>
      simp only [runBatchGo, List.nil_append]
      exact List.nil_prefix
    | cons a acts ih =>
      cases a with
      | edit r =>
        simp only [runBatchGo, List.cons_append]
        exact ih (parse_keywords_text r) files
      | next =>
        cases files with
        | nil =>
          simp only [runBatchGo, List.cons_append]
          exact ih kws0 []
        | cons f fs =>
          simp only [runBatchGo, List.cons_append]
          obtain ⟨t, ht⟩ := ih kws0 fs
          exact ⟨t, by rw [List.cons_append, ht]; rfl⟩
  · unfold runBatch
    induction acts generalizing kws0 files with
    | nil =>
      intro _ pr hpr
      simp only [runBatchGo] at hpr
      exact absurd hpr (List.not_mem_nil _)
    | cons a acts ih =>
      intro hnoedit pr hpr
      cases a with
      | edit r => exact absurd rfl (hnoedit _ (List.mem_cons_self _ _) r)
      | next =>
        have hrest : ∀ a ∈ acts, ∀ r : Str, a ≠ RunAct.edit r :=
          fun a ha => hnoedit a (List.mem_cons_of_mem _ ha)
        cases files with
        | nil =>
          simp only [runBatchGo] at hpr
          exact ih kws0 [] hrest pr hpr
        | cons f fs =>
          simp only [runBatchGo] at hpr
          cases hpr with
          | head => rfl
          | tail _ hmem => exact ih kws0 fs hrest pr hmem

/-- C5 amended witness: the theorem applied to a concrete two-file run. -/
theorem C5_keyword_snapshot_witness :
    runBatch ["a".data] [["f1.pdf".data], ["f2.pdf".data]] [RunAct.next]
      <+: runBatch ["a".data] [["f1.pdf".data], ["f2.pdf".data]]
        ([RunAct.next] ++ [RunAct.edit "b".data, RunAct.next]) ∧
    (["f1.pdf".data], ["a".data]).2 = ["a".data] := by
  have h := C5_keyword_snapshot ["a".data] [["f1.pdf".data], ["f2.pdf".data]]
    [RunAct.next] [RunAct.edit "b".data, RunAct.next] "b".data
  refine ⟨h.1, h.2.1 ?_ (["f1.pdf".data], ["a".data]) (by decide)⟩
  intro a ha r
  rw [List.mem_singleton] at ha
  subst ha
  exact fun hcon => RunAct.noConfusion hcon

